import Mathlib

/-!
Verification of the kd-tree implementation in `kdtree.h` (with the brute-force
reference search of `query_kdtree.cpp`).

Modelling conventions:
* The numeric type `T` (instantiated to `double` by both driver programs) is
  embedded as `ℚ`, i.e. exact arithmetic with the operations the code performs.
* C++ `std::vector<T>` becomes `List ℚ`; a null `KDNode*` becomes `Tree.nil`.
* Undefined behaviour (dereferencing the start iterator of an empty range,
  `% 0`, out-of-range `operator[]` inside the sort comparator) is modelled by
  an `Option` result: `none` means the run reaches undefined behaviour.
* `std::nth_element(start, mid, end, cmp)` only promises that afterwards `mid`
  holds the element a full sort would put there and that the range is
  partitioned around it.  We model it by fully sorting the range with the
  total preorder associated with the strict comparator `IndexedPointCompare`,
  which satisfies that contract.
* `numeric_limits<T>::max()`, used as the "maximally bad" initial best
  distance both by `KDTree::nearestNeighbor` and by `bruteForceClosest`, is
  modelled as the top element `none : Option ℚ` of the distance order, so that
  the first real distance always improves on it.
* Recursion of `KDNode::build` and of deserialization is not structural on its
  C++ arguments; a fuel parameter (always instantiated large enough, and
  provably never exhausted on the executions the theorems talk about) makes
  the Lean functions structurally recursive and kernel-computable.
* The serialized text stream is modelled one line at a time: `Line.int n` is a
  line holding the integer `n`, `Line.point cs` a line holding the
  space-separated coordinates `cs`.  This abstracts only the decimal
  formatting (`max_digits10`, lossless for the stored values), not the line
  structure or the sentinel protocol.
-/

namespace KDT

/-- `IndexedPoint` from kdtree.h: a coordinate vector together with the index
of the point in the primal dataset.  The default constructor yields index `-1`
and an empty point. -/
structure IndexedPoint where
  index : Int
  point : List ℚ
deriving DecidableEq

/-- A `KDNode<T>*` value: either `nullptr` (`Tree.nil`) or a node owning a
separation axis `_axis`, a location `_location`, and two child pointers. -/
inductive Tree where
  | nil : Tree
  | node (axis : Int) (location : IndexedPoint) (left right : Tree) : Tree
deriving DecidableEq

/-- `KDTree<T>`: owns a root pointer, possibly null. -/
structure KDTree where
  root : Tree
deriving DecidableEq

/-- `squaredDistance` from kdtree.h: sum of squared coordinate differences.
The C++ loops over the indices of `a` after asserting `a.size() == b.size()`;
for equal-length vectors that loop is exactly this `zipWith` sum. -/
def squaredDistance (a b : List ℚ) : ℚ :=
  (List.zipWith (fun x y => (x - y) * (x - y)) a b).sum

/-- Total preorder induced by the strict comparator `IndexedPointCompare`
(compare two indexed points by their `ax`-th coordinate).  Out-of-range
coordinates read as `0` here; `KDNode.build` separately flags such accesses
as undefined behaviour before ever sorting. -/
def compareLE (ax : Nat) (a b : IndexedPoint) : Prop :=
  a.point.getD ax 0 ≤ b.point.getD ax 0

instance (ax : Nat) : DecidableRel (compareLE ax) :=
  fun a b => inferInstanceAs (Decidable (a.point.getD ax 0 ≤ b.point.getD ax 0))

instance (ax : Nat) : IsTotal IndexedPoint (compareLE ax) :=
  ⟨fun a b => le_total (a.point.getD ax 0) (b.point.getD ax 0)⟩

instance (ax : Nat) : IsTrans IndexedPoint (compareLE ax) :=
  ⟨fun _ _ _ hab hbc => le_trans hab hbc⟩

/-- `KDNode::build(data, start, end, axis)` on the range `l`, with `paxis` the
parent axis (`-1` at the root).  `none` models reaching undefined behaviour:
an empty range (the code dereferences `start` unconditionally), a
zero-dimension head point (`% 0`), or a point too short for the comparator's
`point[_axis]` access.  `fuel` only bounds the recursion depth; every call in
this file supplies at least the range length, which is never exhausted. -/
def KDNode.build : Nat → List IndexedPoint → Int → Option Tree
  | _, [], _ => none
  | 0, _ :: _, _ => none
  | fuel + 1, p :: rest, paxis =>
    let d := p.point.length
    if d = 0 then none
    else
      let ax : Int := (paxis + 1) % (d : Int)
      if rest = [] then
        some (Tree.node ax p Tree.nil Tree.nil)
      else if (p :: rest).any (fun x => decide (x.point.length ≤ ax.toNat)) then none
      else
        let sorted := List.insertionSort (compareLE ax.toNat) (p :: rest)
        let m := (p :: rest).length / 2
        match sorted.drop m with
        | [] => none
        | med :: mrest =>
          (if sorted.take m = [] then some Tree.nil
           else KDNode.build fuel (sorted.take m) ax).bind fun leftT =>
          (KDNode.build fuel (med :: mrest) ax).map fun rightT =>
          Tree.node ax med leftT rightT

/-- The working copy made by `KDTree::build`: each input point tagged with its
0-based position in the input vector. -/
def indexedCopy (data : List (List ℚ)) : List IndexedPoint :=
  (List.range data.length).map fun i : Nat => { index := (i : Int), point := data.getD i [] }

/-- `KDTree::build`: copy the input with indices attached, then build the root
recursively starting from parent axis `-1`.  A `some` result is the
`return true` path of the C++ (construction ran to completion); `none` means
the run reached undefined behaviour inside `KDNode::build`. -/
def KDTree.build (data : List (List ℚ)) : Option KDTree :=
  (KDNode.build (data.length) (indexedCopy data) (-1)).map fun t => { root := t }

/-- Strict comparison of a freshly computed squared distance against the
current best bound; `none` models the `numeric_limits<T>::max()` initial
value, which every distance beats. -/
def ltBound (x : ℚ) : Option ℚ → Bool
  | none => true
  | some v => decide (x < v)

/-- Non-strict comparison against the current best bound, used by the
hypersphere / splitting-plane test. -/
def leBound (x : ℚ) : Option ℚ → Bool
  | none => true
  | some v => decide (x ≤ v)

/-- `KDNode::nearestNeighbor(queryPoint, best, bestSqrDistance)`: possibly
update the best with this node's point, recurse into the near side (or the
only available side), then re-examine the far side when the splitting plane
is within the best-distance hypersphere.  The two reference parameters are
threaded as the `IndexedPoint × Option ℚ` state. -/
def KDNode.nearestNeighbor : Tree → List ℚ → IndexedPoint → Option ℚ → IndexedPoint × Option ℚ
  | Tree.nil, _, best, bestSq => (best, bestSq)
  | Tree.node ax loc l r, q, best, bestSq =>
    let dist := squaredDistance loc.point q
    let s1 := if ltBound dist bestSq then (loc, some dist) else (best, bestSq)
    let s2 :=
      if l ≠ Tree.nil ∧ q.getD ax.toNat 0 ≤ loc.point.getD ax.toNat 0 then
        KDNode.nearestNeighbor l q s1.1 s1.2
      else if r ≠ Tree.nil then
        KDNode.nearestNeighbor r q s1.1 s1.2
      else s1
    let hd := q.getD ax.toNat 0 - loc.point.getD ax.toNat 0
    if leBound (hd * hd) s2.2 then
      if r ≠ Tree.nil ∧ q.getD ax.toNat 0 ≤ loc.point.getD ax.toNat 0 then
        KDNode.nearestNeighbor r q s2.1 s2.2
      else if l ≠ Tree.nil then
        KDNode.nearestNeighbor l q s2.1 s2.2
      else s2
    else s2

/-- `KDTree::nearestNeighbor`: with no root, report the not-built condition by
returning a default `IndexedPoint` (index `-1`, empty point).  Otherwise run
the recursive search with best initialized to the origin of the query's
dimension and a maximally bad best distance. -/
def KDTree.nearestNeighbor (t : KDTree) (q : List ℚ) : IndexedPoint :=
  match t.root with
  | Tree.nil => { index := -1, point := [] }
  | n => (KDNode.nearestNeighbor n q { index := -1, point := List.replicate q.length 0 } none).1

/-- `bruteForceClosest` from query_kdtree.cpp: linear scan keeping the index
of the first point realizing the strictly smallest squared distance, starting
from index `-1` and a maximally bad distance.  The inner loop runs over the
query's dimension, which for same-dimension data equals `squaredDistance`
computed over the query's indices. -/
def bruteForceClosest (data : List (List ℚ)) (q : List ℚ) : Int :=
  ((List.range data.length).foldl
    (fun best dd =>
      let dist := ((List.range q.length).map
        (fun i => ((data.getD dd []).getD i 0 - q.getD i 0) *
          ((data.getD dd []).getD i 0 - q.getD i 0))).sum
      if ltBound dist best.2 then ((dd : Int), some dist) else best)
    ((-1 : Int), (none : Option ℚ))).1

/-- The squared distance computed by the inner loop of `bruteForceClosest` for
dataset index `dd` (summing over the query's dimension, exactly as the C++
loop indexes both vectors). -/
def bfD (data : List (List ℚ)) (q : List ℚ) (dd : Nat) : ℚ :=
  ((List.range q.length).map
    (fun i => ((data.getD dd []).getD i 0 - q.getD i 0) *
      ((data.getD dd []).getD i 0 - q.getD i 0))).sum

/-- One line of the serialized text form: either a line holding an integer or
a line holding the space-separated coordinates of a point. -/
inductive Line where
  | int (n : Int) : Line
  | point (coords : List ℚ) : Line
deriving DecidableEq

/-- `operator<<` on `KDNode`: pre-order — axis line, index line, coordinate
line, then the left and right encodings, an absent child printing the single
`NULLPTR_MARKER` (`-1`) line. -/
def Tree.serializeLines : Tree → List Line
  | Tree.nil => [Line.int (-1)]
  | Tree.node ax loc l r =>
    Line.int ax :: Line.int loc.index :: Line.point loc.point ::
      (l.serializeLines ++ r.serializeLines)

/-- `operator<<` on `KDTree`: print the root's encoding when a root exists;
with a null root nothing at all is written. -/
def KDTree.serialize (t : KDTree) : List Line :=
  match t.root with
  | Tree.nil => []
  | n => n.serializeLines

/-- `intFromStream`: `getline` one line and parse an integer from it; end of
input or a parse failure gives `-1`.  A coordinate line would parse as the
integer part (truncated toward zero) of its first coordinate, or fail when
empty; the aligned streams of the round-trip theorems never hit that case. -/
def intFromStream : List Line → Int × List Line
  | [] => (-1, [])
  | Line.int n :: rest => (n, rest)
  | Line.point [] :: rest => (-1, rest)
  | Line.point (c :: _) :: rest => (Int.tdiv c.num (c.den : Int), rest)

/-- The coordinate-line read of `operator>>` on `KDNode`: `getline` then parse
all numeric tokens.  End of input gives no tokens; an integer line would parse
as one coordinate. -/
def pointFromStream : List Line → List ℚ × List Line
  | [] => ([], [])
  | Line.point cs :: rest => (cs, rest)
  | Line.int n :: rest => ([(n : ℚ)], rest)

/-- `operator>>` on `KDNode`, entered after the caller consumed this node's
axis line: read the index and coordinate lines, then for each child read its
axis line, `-1` (or end of input) meaning no child, anything else starting a
recursive node read.  `fuel` only bounds the recursion depth; callers supply
at least the stream length, which is never exhausted (each recursive step has
consumed at least one line). -/
def readNode : Nat → Int → List Line → Tree × List Line
  | 0, ax, s => (Tree.node ax { index := -1, point := [] } Tree.nil Tree.nil, s)
  | fuel + 1, ax, s =>
    let r1 := intFromStream s
    let r2 := pointFromStream r1.2
    let r3 := intFromStream r2.2
    let r4 := if r3.1 = -1 then (Tree.nil, r3.2) else readNode fuel r3.1 r3.2
    let r5 := intFromStream r4.2
    let r6 := if r5.1 = -1 then (Tree.nil, r5.2) else readNode fuel r5.1 r5.2
    (Tree.node ax { index := r1.1, point := r2.1 } r4.1 r6.1, r6.2)

/-- `operator>>` on `KDTree`: read the first axis line; `-1` (in particular an
empty stream) leaves the tree as it was, anything else replaces the root with
the node read from the remaining stream. -/
def KDTree.deserializeInto (t : KDTree) (s : List Line) : KDTree :=
  let r1 := intFromStream s
  if r1.1 = -1 then t
  else { root := (readNode (r1.2.length + 1) r1.1 r1.2).1 }

/-- All indexed points stored in a tree, root first. -/
def Tree.locations : Tree → List IndexedPoint
  | Tree.nil => []
  | Tree.node _ loc l r => loc :: (l.locations ++ r.locations)

/-- Number of nodes of a tree. -/
def Tree.size : Tree → Nat
  | Tree.nil => 0
  | Tree.node _ _ l r => l.size + r.size + 1

/-- Every axis stored in the tree is nonnegative (so none of them collides
with the `-1` null marker of the codec). -/
def Tree.axesNonneg : Tree → Bool
  | Tree.nil => true
  | Tree.node ax _ l r => decide (0 ≤ ax) && l.axesNonneg && r.axesNonneg

/-- The split axes cycle by depth: each node's axis is `(parent axis + 1)`
modulo the dimension `D`, where `paxis` is the axis of the parent (`-1` above
the root). -/
def Tree.axesFrom (D : Nat) : Tree → Int → Bool
  | Tree.nil, _ => true
  | Tree.node ax _ l r, paxis =>
    decide (ax = (paxis + 1) % (D : Int)) && l.axesFrom D ax && r.axesFrom D ax

/-- Every node has either no children or two children. -/
def Tree.zeroOrTwo : Tree → Bool
  | Tree.nil => true
  | Tree.node _ _ l r =>
    ((l == Tree.nil) == (r == Tree.nil)) && l.zeroOrTwo && r.zeroOrTwo

/-- Structural invariant established by `KDNode::build` over dimension-`D`
data: axes are in range, stored points have dimension `D`, and each subtree
is partitioned around its node's coordinate on the node's axis. -/
inductive Inv (D : Nat) : Tree → Prop
  | nil : Inv D Tree.nil
  | node {ax : Int} {loc : IndexedPoint} {l r : Tree} :
      0 ≤ ax → ax < (D : Int) →
      loc.point.length = D →
      (∀ p ∈ l.locations, p.point.getD ax.toNat 0 ≤ loc.point.getD ax.toNat 0) →
      (∀ p ∈ r.locations, loc.point.getD ax.toNat 0 ≤ p.point.getD ax.toNat 0) →
      (∀ p ∈ l.locations, p.point.length = D) →
      (∀ p ∈ r.locations, p.point.length = D) →
      Inv D l → Inv D r →
      Inv D (Tree.node ax loc l r)

/-- Order on best-distance bounds: `none` is the top (`numeric_limits::max`)
element. -/
def dLE : Option ℚ → Option ℚ → Prop
  | _, none => True
  | none, some _ => False
  | some a, some b => a ≤ b

/-- Intermediate specification of one search step: the best-distance bound
never worsens, and the best point is either untouched or one of the points of
the scanned set `S`, recorded together with its exact squared distance. -/
def NNOk (S : List IndexedPoint) (q : List ℚ) (b : IndexedPoint) (d : Option ℚ)
    (s : IndexedPoint × Option ℚ) : Prop :=
  dLE s.2 d ∧ (s = (b, d) ∨ ∃ p ∈ S, s = (p, some (squaredDistance p.point q)))

attribute [local semireducible] Rat.add Rat.sub Rat.mul Rat.inv

theorem dLE_refl (d : Option ℚ) : dLE d d := by
  cases d <;> simp [dLE]

theorem dLE_trans {a b c : Option ℚ} (h1 : dLE a b) (h2 : dLE b c) : dLE a c := by
  cases a <;> cases b <;> cases c <;> simp_all [dLE] <;> exact le_trans h1 h2

theorem dLE_some_none {x : ℚ} : ¬ dLE none (some x) := by
  simp [dLE]

theorem dLE_some_some {x y : ℚ} (h : x ≤ y) : dLE (some x) (some y) := h

theorem dLE_some_iff {x : ℚ} {d : Option ℚ} (h : dLE d (some x)) :
    ∃ v, d = some v ∧ v ≤ x := by
  cases d with
  | none => exact absurd h dLE_some_none
  | some v => exact ⟨v, rfl, h⟩

theorem ltBound_true {x : ℚ} {d : Option ℚ} (h : ltBound x d = true) : dLE (some x) d := by
  cases d with
  | none => trivial
  | some v => exact le_of_lt (by simpa [ltBound] using h)

theorem ltBound_false {x : ℚ} {d : Option ℚ} (h : ltBound x d = false) : dLE d (some x) := by
  cases d with
  | none => simp [ltBound] at h
  | some v => simpa [ltBound, dLE] using h

theorem leBound_false {x : ℚ} {d : Option ℚ} (h : leBound x d = false) :
    ∃ v, d = some v ∧ v < x := by
  cases d with
  | none => simp [leBound] at h
  | some v => exact ⟨v, rfl, by simpa [leBound] using h⟩

theorem NNOk_refl (S : List IndexedPoint) (q : List ℚ) (b : IndexedPoint) (d : Option ℚ) :
    NNOk S q b d (b, d) :=
  ⟨dLE_refl d, Or.inl rfl⟩

theorem NNOk_compose {S1 S2 U : List IndexedPoint} {q : List ℚ} {b : IndexedPoint}
    {d : Option ℚ} {s s' : IndexedPoint × Option ℚ}
    (hS1 : ∀ x ∈ S1, x ∈ U) (hS2 : ∀ x ∈ S2, x ∈ U)
    (h1 : NNOk S1 q b d s) (h2 : NNOk S2 q s.1 s.2 s') : NNOk U q b d s' := by
  refine ⟨dLE_trans h2.1 h1.1, ?_⟩
  rcases h2.2 with h | ⟨p, hp, hps⟩
  · have hs' : s' = s := by rw [h]
    rcases h1.2 with h' | ⟨p, hp, hps⟩
    · exact Or.inl (hs' ▸ h')
    · exact Or.inr ⟨p, hS1 p hp, hs' ▸ hps⟩
  · exact Or.inr ⟨p, hS2 p hp, hps⟩

theorem build_cons (fuel : Nat) (p : IndexedPoint) (rest : List IndexedPoint) (paxis : Int) :
    KDNode.build (fuel + 1) (p :: rest) paxis =
      (if p.point.length = 0 then none
       else if rest = [] then
        some (Tree.node ((paxis + 1) % (p.point.length : Int)) p Tree.nil Tree.nil)
       else if (p :: rest).any
          (fun x => decide (x.point.length ≤ ((paxis + 1) % (p.point.length : Int)).toNat)) then
        none
       else
        match (List.insertionSort (compareLE ((paxis + 1) % (p.point.length : Int)).toNat)
            (p :: rest)).drop ((p :: rest).length / 2) with
        | [] => none
        | med :: mrest =>
          (if (List.insertionSort (compareLE ((paxis + 1) % (p.point.length : Int)).toNat)
              (p :: rest)).take ((p :: rest).length / 2) = [] then some Tree.nil
           else KDNode.build fuel
              ((List.insertionSort (compareLE ((paxis + 1) % (p.point.length : Int)).toNat)
                (p :: rest)).take ((p :: rest).length / 2))
              ((paxis + 1) % (p.point.length : Int))).bind fun leftT =>
          (KDNode.build fuel (med :: mrest) ((paxis + 1) % (p.point.length : Int))).map
            fun rightT =>
          Tree.node ((paxis + 1) % (p.point.length : Int)) med leftT rightT) := rfl

theorem build_cases {motive : Prop} (fuel : Nat) (l : List IndexedPoint) (paxis : Int)
    (t : Tree) (h : KDNode.build fuel l paxis = some t)
    (leaf : ∀ p : IndexedPoint, l = [p] → 0 < p.point.length →
      t = Tree.node ((paxis + 1) % (p.point.length : Int)) p Tree.nil Tree.nil → motive)
    (split : ∀ (fuel' : Nat) (p : IndexedPoint) (rest : List IndexedPoint) (ax : Int)
        (med : IndexedPoint) (mrest : List IndexedPoint) (lt rt : Tree),
      fuel = fuel' + 1 → l = p :: rest → rest ≠ [] → 0 < p.point.length →
      ax = (paxis + 1) % (p.point.length : Int) →
      (∀ x ∈ l, ax.toNat < x.point.length) →
      (List.insertionSort (compareLE ax.toNat) l).drop (l.length / 2) = med :: mrest →
      KDNode.build fuel' ((List.insertionSort (compareLE ax.toNat) l).take (l.length / 2)) ax
        = some lt →
      KDNode.build fuel' (med :: mrest) ax = some rt →
      t = Tree.node ax med lt rt → motive) : motive := by
  match fuel, l with
  | 0, [] => exact absurd h (by simp [KDNode.build])
  | 0, _ :: _ => exact absurd h (by simp [KDNode.build])
  | fuel + 1, [] => exact absurd h (by simp [KDNode.build])
  | fuel + 1, p :: rest =>
    rw [build_cons] at h
    by_cases h0 : p.point.length = 0
    · rw [if_pos h0] at h; exact absurd h (by simp)
    rw [if_neg h0] at h
    by_cases h1 : rest = []
    · rw [if_pos h1] at h
      exact leaf p (by rw [h1]) (Nat.pos_of_ne_zero h0)
        (Option.some.inj h).symm
    rw [if_neg h1] at h
    by_cases h2 : (p :: rest).any
        (fun x => decide (x.point.length ≤ ((paxis + 1) % (p.point.length : Int)).toNat))
    · rw [if_pos h2] at h; exact absurd h (by simp)
    rw [if_neg h2] at h
    rcases hdrop : (List.insertionSort (compareLE ((paxis + 1) % (p.point.length : Int)).toNat)
        (p :: rest)).drop ((p :: rest).length / 2) with _ | ⟨med, mrest⟩
    · rw [hdrop] at h; exact absurd h (by simp)
    rw [hdrop] at h
    have htake : (List.insertionSort (compareLE ((paxis + 1) % (p.point.length : Int)).toNat)
        (p :: rest)).take ((p :: rest).length / 2) ≠ [] := by
      have hlen2 : 2 ≤ (p :: rest).length := by
        cases rest with
        | nil => exact absurd rfl h1
        | cons b bs => simp only [List.length_cons]; omega
      have hm1 : 1 ≤ (p :: rest).length / 2 := by omega
      intro hcon
      rcases List.take_eq_nil_iff.mp hcon with hs | hs
      · omega
      · have := congrArg List.length hs
        simp only [List.length_insertionSort, List.length_nil] at this
        omega
    rw [if_neg htake] at h
    rw [Option.bind_eq_some] at h
    obtain ⟨lt, hlt, h⟩ := h
    rw [Option.map_eq_some'] at h
    obtain ⟨rt, hrt, ht⟩ := h
    refine split fuel p rest ((paxis + 1) % (p.point.length : Int)) med mrest lt rt rfl rfl h1
      (Nat.pos_of_ne_zero h0) rfl ?_ hdrop hlt hrt ht.symm
    intro x hx
    have := (List.any_eq_true.not.mp h2)
    push_neg at this
    have hx' := this x hx
    simpa using Nat.lt_of_not_le (by simpa using hx')

theorem build_ne_nil {fuel : Nat} {l : List IndexedPoint} {paxis : Int} {t : Tree}
    (h : KDNode.build fuel l paxis = some t) : t ≠ Tree.nil := by
  refine build_cases fuel l paxis t h ?_ ?_
  · rintro p _ _ rfl; simp
  · rintro _ _ _ _ _ _ _ _ _ _ _ _ _ _ _ _ _ rfl; simp

theorem locations_subset {fuel : Nat} {l : List IndexedPoint} {paxis : Int} {t : Tree}
    (h : KDNode.build fuel l paxis = some t) : ∀ x ∈ t.locations, x ∈ l := by
  induction fuel generalizing l paxis t with
  | zero =>
    refine build_cases 0 l paxis t h ?_ ?_
    · rintro p rfl _ rfl
      simp [Tree.locations]
    · rintro fuel' _ _ _ _ _ _ _ hfuel _ _ _ _ _ _ _ _ _
      exact absurd hfuel (by omega)
  | succ fuel ih =>
    refine build_cases (fuel + 1) l paxis t h ?_ ?_
    · rintro p rfl _ rfl
      simp [Tree.locations]
    · rintro fuel' p rest ax med mrest lt rt hfuel rfl hrest _ _ _ hdrop hlt hrt rfl
      obtain rfl : fuel' = fuel := by omega
      intro x hx
      have hmem : x = med ∨ x ∈ lt.locations ∨ x ∈ rt.locations := by
        simpa [Tree.locations] using hx
      have hsorted : ∀ y : IndexedPoint,
          y ∈ List.insertionSort (compareLE ax.toNat) (p :: rest) → y ∈ p :: rest := by
        intro y hy; simpa using hy
      rcases hmem with rfl | hx' | hx'
      · exact hsorted _ (List.drop_subset _ _ (hdrop ▸ List.mem_cons_self _ _))
      · exact hsorted _ (List.take_subset _ _ (ih hlt x hx'))
      · exact hsorted _ (List.drop_subset _ _ (hdrop ▸ ih hrt x hx'))

theorem subset_locations {fuel : Nat} {l : List IndexedPoint} {paxis : Int} {t : Tree}
    (h : KDNode.build fuel l paxis = some t) : ∀ x ∈ l, x ∈ t.locations := by
  induction fuel generalizing l paxis t with
  | zero =>
    refine build_cases 0 l paxis t h ?_ ?_
    · rintro p rfl _ rfl
      simp [Tree.locations]
    · rintro fuel' _ _ _ _ _ _ _ hfuel _ _ _ _ _ _ _ _ _
      exact absurd hfuel (by omega)
  | succ fuel ih =>
    refine build_cases (fuel + 1) l paxis t h ?_ ?_
    · rintro p rfl _ rfl
      simp [Tree.locations]
    · rintro fuel' p rest ax med mrest lt rt hfuel rfl hrest _ _ _ hdrop hlt hrt rfl
      obtain rfl : fuel' = fuel := by omega
      intro x hx
      have hx' : x ∈ List.insertionSort (compareLE ax.toNat) (p :: rest) := by
        simpa using hx
      rw [← List.take_append_drop ((p :: rest).length / 2)
        (List.insertionSort (compareLE ax.toNat) (p :: rest))] at hx'
      rcases List.mem_append.mp hx' with hc | hc
      · have := ih hlt x hc
        simp [Tree.locations, this]
      · have := ih hrt x (hdrop ▸ hc)
        simp [Tree.locations, this]

theorem sorted_partition (ax : Nat) (l : List IndexedPoint) (m : Nat)
    (med : IndexedPoint) (mrest : List IndexedPoint)
    (h : (List.insertionSort (compareLE ax) l).drop m = med :: mrest) :
    (∀ x ∈ (List.insertionSort (compareLE ax) l).take m, compareLE ax x med) ∧
    (∀ y ∈ med :: mrest, compareLE ax med y) := by
  have hs : List.Sorted (compareLE ax) (List.insertionSort (compareLE ax) l) :=
    List.sorted_insertionSort _ _
  have hsplit : List.Pairwise (compareLE ax)
      ((List.insertionSort (compareLE ax) l).take m ++
        (List.insertionSort (compareLE ax) l).drop m) := by
    rw [List.take_append_drop m (List.insertionSort (compareLE ax) l)]
    exact hs
  rw [List.pairwise_append] at hsplit
  obtain ⟨_, hdropPW, hcross⟩ := hsplit
  constructor
  · intro x hx
    exact hcross x hx med (by rw [h]; exact List.mem_cons_self _ _)
  · intro y hy
    rw [h] at hdropPW
    rcases List.mem_cons.mp hy with rfl | hy'
    · exact le_refl (y.point.getD ax 0)
    · exact (List.pairwise_cons.mp hdropPW).1 y hy'

theorem build_Inv {D : Nat} {fuel : Nat} {l : List IndexedPoint} {paxis : Int} {t : Tree}
    (h : KDNode.build fuel l paxis = some t) (hdim : ∀ x ∈ l, x.point.length = D) :
    Inv D t := by
  induction fuel generalizing l paxis t with
  | zero =>
    refine build_cases 0 l paxis t h ?_ ?_
    · rintro p rfl hp rfl
      have hD : p.point.length = D := hdim p (List.mem_cons_self _ _)
      have hD0 : 0 < D := hD ▸ hp
      rw [hD]
      exact Inv.node (Int.emod_nonneg _ (by exact_mod_cast hD0.ne'))
        (Int.emod_lt_of_pos _ (by exact_mod_cast hD0)) hD
        (by simp [Tree.locations]) (by simp [Tree.locations])
        (by simp [Tree.locations]) (by simp [Tree.locations]) Inv.nil Inv.nil
    · rintro fuel' _ _ _ _ _ _ _ hfuel _ _ _ _ _ _ _ _ _
      exact absurd hfuel (by omega)
  | succ fuel ih =>
    refine build_cases (fuel + 1) l paxis t h ?_ ?_
    · rintro p rfl hp rfl
      have hD : p.point.length = D := hdim p (List.mem_cons_self _ _)
      have hD0 : 0 < D := hD ▸ hp
      rw [hD]
      exact Inv.node (Int.emod_nonneg _ (by exact_mod_cast hD0.ne'))
        (Int.emod_lt_of_pos _ (by exact_mod_cast hD0)) hD
        (by simp [Tree.locations]) (by simp [Tree.locations])
        (by simp [Tree.locations]) (by simp [Tree.locations]) Inv.nil Inv.nil
    · rintro fuel' p rest ax med mrest lt rt hfuel rfl hrest hp hax _ hdrop hlt hrt rfl
      obtain rfl : fuel' = fuel := by omega
      have hD : p.point.length = D := hdim p (List.mem_cons_self _ _)
      have hD0 : 0 < D := hD ▸ hp
      rw [hD] at hax
      have hmemTake : ∀ x ∈ (List.insertionSort (compareLE ax.toNat) (p :: rest)).take
          ((p :: rest).length / 2), x ∈ p :: rest := by
        intro x hx
        have := List.take_subset _ _ hx
        simpa using this
      have hmemDrop : ∀ x ∈ med :: mrest, x ∈ p :: rest := by
        intro x hx
        have := List.drop_subset _ _ (hdrop ▸ hx)
        simpa using this
      have hdimTake : ∀ x ∈ (List.insertionSort (compareLE ax.toNat) (p :: rest)).take
          ((p :: rest).length / 2), x.point.length = D := fun x hx => hdim x (hmemTake x hx)
      have hdimDrop : ∀ x ∈ med :: mrest, x.point.length = D :=
        fun x hx => hdim x (hmemDrop x hx)
      have hpart := sorted_partition ax.toNat (p :: rest) ((p :: rest).length / 2) med mrest hdrop
      have hltloc := locations_subset hlt
      have hrtloc := locations_subset hrt
      refine Inv.node ?_ ?_ (hdim med (hmemDrop med (List.mem_cons_self _ _))) ?_ ?_ ?_ ?_
        (ih hlt hdimTake) (ih hrt hdimDrop)
      · exact hax ▸ Int.emod_nonneg _ (by exact_mod_cast hD0.ne')
      · exact hax ▸ Int.emod_lt_of_pos _ (by exact_mod_cast hD0)
      · exact fun x hx => hpart.1 x (hltloc x hx)
      · exact fun x hx => hpart.2 x (hrtloc x hx)
      · exact fun x hx => hdim x (hmemTake x (hltloc x hx))
      · exact fun x hx => hdim x (hmemDrop x (hrtloc x hx))

theorem build_axesNonneg {fuel : Nat} {l : List IndexedPoint} {paxis : Int} {t : Tree}
    (h : KDNode.build fuel l paxis = some t) : t.axesNonneg = true := by
  induction fuel generalizing l paxis t with
  | zero =>
    refine build_cases 0 l paxis t h ?_ ?_
    · rintro p rfl hp rfl
      simp [Tree.axesNonneg]
      exact Int.emod_nonneg _ (by exact_mod_cast hp.ne')
    · rintro fuel' _ _ _ _ _ _ _ hfuel _ _ _ _ _ _ _ _ _
      exact absurd hfuel (by omega)
  | succ fuel ih =>
    refine build_cases (fuel + 1) l paxis t h ?_ ?_
    · rintro p rfl hp rfl
      simp [Tree.axesNonneg]
      exact Int.emod_nonneg _ (by exact_mod_cast hp.ne')
    · rintro fuel' p rest ax med mrest lt rt hfuel rfl hrest hp hax _ hdrop hlt hrt rfl
      obtain rfl : fuel' = fuel := by omega
      simp [Tree.axesNonneg, ih hlt, ih hrt, hax]
      exact Int.emod_nonneg _ (by exact_mod_cast hp.ne')

theorem build_axesFrom {D : Nat} {fuel : Nat} {l : List IndexedPoint} {paxis : Int} {t : Tree}
    (h : KDNode.build fuel l paxis = some t) (hdim : ∀ x ∈ l, x.point.length = D) :
    t.axesFrom D paxis = true := by
  induction fuel generalizing l paxis t with
  | zero =>
    refine build_cases 0 l paxis t h ?_ ?_
    · rintro p rfl hp rfl
      have hD : p.point.length = D := hdim p (List.mem_cons_self _ _)
      simp [Tree.axesFrom, hD]
    · rintro fuel' _ _ _ _ _ _ _ hfuel _ _ _ _ _ _ _ _ _
      exact absurd hfuel (by omega)
  | succ fuel ih =>
    refine build_cases (fuel + 1) l paxis t h ?_ ?_
    · rintro p rfl hp rfl
      have hD : p.point.length = D := hdim p (List.mem_cons_self _ _)
      simp [Tree.axesFrom, hD]
    · rintro fuel' p rest ax med mrest lt rt hfuel rfl hrest hp hax _ hdrop hlt hrt rfl
      obtain rfl : fuel' = fuel := by omega
      have hD : p.point.length = D := hdim p (List.mem_cons_self _ _)
      rw [hD] at hax
      subst hax
      have hdimTake : ∀ x ∈ (List.insertionSort
          (compareLE ((paxis + 1) % (D : Int)).toNat) (p :: rest)).take
          ((p :: rest).length / 2), x.point.length = D := by
        intro x hx
        exact hdim x (by simpa using List.take_subset _ _ hx)
      have hdimDrop : ∀ x ∈ med :: mrest, x.point.length = D := by
        intro x hx
        rw [← hdrop] at hx
        exact hdim x (by simpa using List.drop_subset _ _ hx)
      simp [Tree.axesFrom, ih hlt hdimTake, ih hrt hdimDrop]

theorem build_zeroOrTwo {fuel : Nat} {l : List IndexedPoint} {paxis : Int} {t : Tree}
    (h : KDNode.build fuel l paxis = some t) : t.zeroOrTwo = true := by
  induction fuel generalizing l paxis t with
  | zero =>
    refine build_cases 0 l paxis t h ?_ ?_
    · rintro p rfl hp rfl
      simp [Tree.zeroOrTwo]
    · rintro fuel' _ _ _ _ _ _ _ hfuel _ _ _ _ _ _ _ _ _
      exact absurd hfuel (by omega)
  | succ fuel ih =>
    refine build_cases (fuel + 1) l paxis t h ?_ ?_
    · rintro p rfl hp rfl
      simp [Tree.zeroOrTwo]
    · rintro fuel' p rest ax med mrest lt rt hfuel rfl hrest hp hax _ hdrop hlt hrt rfl
      obtain rfl : fuel' = fuel := by omega
      have hl : lt ≠ Tree.nil := build_ne_nil hlt
      have hr : rt ≠ Tree.nil := build_ne_nil hrt
      simp [Tree.zeroOrTwo, ih hlt, ih hrt, hl, hr]

theorem build_both_children {fuel : Nat} {l : List IndexedPoint} {paxis : Int}
    {ax : Int} {loc : IndexedPoint} {lt rt : Tree}
    (h : KDNode.build fuel l paxis = some (Tree.node ax loc lt rt))
    (hlen : 2 ≤ l.length) : lt ≠ Tree.nil ∧ rt ≠ Tree.nil := by
  refine build_cases fuel l paxis _ h ?_ ?_
  · rintro p rfl _ heq
    simp at hlen
  · rintro fuel' p rest ax' med mrest lt' rt' hfuel rfl hrest hp hax _ hdrop hlt hrt heq
    obtain ⟨rfl, rfl, rfl, rfl⟩ : ax' = ax ∧ med = loc ∧ lt' = lt ∧ rt' = rt := by
      injection heq.symm with h1 h2 h3 h4
      exact ⟨h1, h2, h3, h4⟩
    exact ⟨build_ne_nil hlt, build_ne_nil hrt⟩

theorem intFromStream_int (n : Int) (rest : List Line) :
    intFromStream (Line.int n :: rest) = (n, rest) := rfl

theorem pointFromStream_point (cs : List ℚ) (rest : List Line) :
    pointFromStream (Line.point cs :: rest) = (cs, rest) := rfl

theorem serialize_size_le (t : Tree) : t.size ≤ t.serializeLines.length := by
  induction t with
  | nil => simp [Tree.size, Tree.serializeLines]
  | node ax loc l r ihl ihr =>
    simp only [Tree.size, Tree.serializeLines, List.length_cons, List.length_append]
    omega

theorem readChild_round (t : Tree) (hax : t.axesNonneg = true) :
    ∀ (rest : List Line) (fuel : Nat), t.size ≤ fuel →
      (if (intFromStream (t.serializeLines ++ rest)).1 = -1
       then (Tree.nil, (intFromStream (t.serializeLines ++ rest)).2)
       else readNode fuel (intFromStream (t.serializeLines ++ rest)).1
         (intFromStream (t.serializeLines ++ rest)).2) = (t, rest) := by
  induction t with
  | nil =>
    intro rest fuel _
    simp [Tree.serializeLines, intFromStream]
  | node ax loc l r ihl ihr =>
    intro rest fuel hsize
    have haxparts : (0 ≤ ax) ∧ l.axesNonneg = true ∧ r.axesNonneg = true := by
      simpa [Tree.axesNonneg, Bool.and_eq_true, and_assoc] using hax
    have hne : ¬ (ax = -1) := by omega
    simp only [Tree.serializeLines, List.cons_append, intFromStream_int]
    rw [if_neg hne]
    have hsz : l.size + r.size + 1 ≤ fuel := by
      simpa [Tree.size] using hsize
    cases fuel with
    | zero => omega
    | succ f =>
      simp only [readNode, intFromStream_int, pointFromStream_point, List.append_assoc,
        ihl haxparts.2.1 (r.serializeLines ++ rest) f (by omega),
        ihr haxparts.2.2 rest f (by omega)]

theorem deserialize_serialize (T : KDTree) (hax : T.root.axesNonneg = true)
    (hne : T.root ≠ Tree.nil) :
    KDTree.deserializeInto { root := Tree.nil } T.serialize = T := by
  rcases hroot : T.root with _ | ⟨ax, loc, l, r⟩
  · exact absurd hroot hne
  have h0 : (0 ≤ ax) ∧ l.axesNonneg = true ∧ r.axesNonneg = true := by
    rw [hroot] at hax
    simpa [Tree.axesNonneg, Bool.and_eq_true, and_assoc] using hax
  have hnax : ¬ (ax = -1) := by omega
  have hser : T.serialize = (Tree.node ax loc l r).serializeLines := by
    rw [KDTree.serialize, hroot]
  have hround := readChild_round T.root (by rw [hroot] at hax ⊢; exact hax) []
    ((Line.int loc.index :: Line.point loc.point ::
      (l.serializeLines ++ r.serializeLines)).length + 1)
    (by
      have := serialize_size_le T.root
      rw [hroot] at this ⊢
      simp only [Tree.serializeLines, List.length_cons] at *
      omega)
  rw [hroot, List.append_nil] at hround
  simp only [Tree.serializeLines, intFromStream_int] at hround
  rw [if_neg hnax] at hround
  rw [KDTree.deserializeInto, hser]
  simp only [Tree.serializeLines, intFromStream_int]
  rw [if_neg hnax, hround, ← hroot]

theorem KDTree.build_root {data : List (List ℚ)} {T : KDTree}
    (h : KDTree.build data = some T) :
    KDNode.build data.length (indexedCopy data) (-1) = some T.root := by
  rw [KDTree.build, Option.map_eq_some'] at h
  obtain ⟨t, ht, rfl⟩ := h
  exact ht

theorem NNOk_mono {S U : List IndexedPoint} {q : List ℚ} {b : IndexedPoint}
    {d : Option ℚ} {s : IndexedPoint × Option ℚ}
    (hsub : ∀ x ∈ S, x ∈ U) (h : NNOk S q b d s) : NNOk U q b d s := by
  refine ⟨h.1, ?_⟩
  rcases h.2 with h' | ⟨p, hp, hps⟩
  · exact Or.inl h'
  · exact Or.inr ⟨p, hsub p hp, hps⟩

theorem step1_spec (q : List ℚ) (loc b : IndexedPoint) (d : Option ℚ) :
    NNOk [loc] q b d (if ltBound (squaredDistance loc.point q) d = true
        then (loc, some (squaredDistance loc.point q)) else (b, d)) ∧
    dLE (if ltBound (squaredDistance loc.point q) d = true
        then (loc, some (squaredDistance loc.point q)) else (b, d)).2
      (some (squaredDistance loc.point q)) := by
  by_cases h : ltBound (squaredDistance loc.point q) d = true
  · rw [if_pos h]
    exact ⟨⟨ltBound_true h, Or.inr ⟨loc, List.mem_cons_self _ _, rfl⟩⟩, dLE_refl _⟩
  · rw [if_neg h]
    exact ⟨NNOk_refl _ _ _ _, ltBound_false (Bool.eq_false_iff.mpr h)⟩

theorem sqSum_nonneg : ∀ (a b : List ℚ),
    0 ≤ (List.zipWith (fun x y => (x - y) * (x - y)) a b).sum := by
  intro a
  induction a with
  | nil => intro b; simp
  | cons x a' ih =>
    intro b
    cases b with
    | nil => simp
    | cons y b' =>
      simp only [List.zipWith_cons_cons, List.sum_cons]
      have h1 := ih b'
      have h0 : 0 ≤ (x - y) * (x - y) := mul_self_nonneg _
      linarith

theorem squaredDistance_term : ∀ (a b : List ℚ) (i : Nat), i < a.length → i < b.length →
    (a.getD i 0 - b.getD i 0) * (a.getD i 0 - b.getD i 0) ≤ squaredDistance a b := by
  intro a
  induction a with
  | nil => intro b i h _; simp at h
  | cons x a' iha =>
    intro b i hia hib
    cases b with
    | nil => simp at hib
    | cons y b' =>
      cases i with
      | zero =>
        simp only [List.getD_cons_zero, squaredDistance, List.zipWith_cons_cons,
          List.sum_cons]
        have h1 := sqSum_nonneg a' b'
        linarith
      | succ i =>
        simp only [List.getD_cons_succ, squaredDistance, List.zipWith_cons_cons,
          List.sum_cons]
        have h1 := iha b' i (by simpa using hia) (by simpa using hib)
        simp only [squaredDistance] at h1
        have h0 : 0 ≤ (x - y) * (x - y) := mul_self_nonneg _
        linarith

theorem sq_mono {u v : ℚ} (h0 : 0 ≤ u) (huv : u ≤ v) : u * u ≤ v * v :=
  mul_le_mul huv huv h0 (le_trans h0 huv)

theorem nn_node_eq (ax : Int) (loc : IndexedPoint) (l r : Tree) (q : List ℚ)
    (b : IndexedPoint) (d : Option ℚ) :
    KDNode.nearestNeighbor (Tree.node ax loc l r) q b d =
      (if leBound ((q.getD ax.toNat 0 - loc.point.getD ax.toNat 0) *
            (q.getD ax.toNat 0 - loc.point.getD ax.toNat 0))
          (if l ≠ Tree.nil ∧ q.getD ax.toNat 0 ≤ loc.point.getD ax.toNat 0 then
            KDNode.nearestNeighbor l q
              (if ltBound (squaredDistance loc.point q) d = true
                then (loc, some (squaredDistance loc.point q)) else (b, d)).1
              (if ltBound (squaredDistance loc.point q) d = true
                then (loc, some (squaredDistance loc.point q)) else (b, d)).2
          else if r ≠ Tree.nil then
            KDNode.nearestNeighbor r q
              (if ltBound (squaredDistance loc.point q) d = true
                then (loc, some (squaredDistance loc.point q)) else (b, d)).1
              (if ltBound (squaredDistance loc.point q) d = true
                then (loc, some (squaredDistance loc.point q)) else (b, d)).2
          else (if ltBound (squaredDistance loc.point q) d = true
                then (loc, some (squaredDistance loc.point q)) else (b, d))).2 = true
       then
        (if r ≠ Tree.nil ∧ q.getD ax.toNat 0 ≤ loc.point.getD ax.toNat 0 then
          KDNode.nearestNeighbor r q
            (if l ≠ Tree.nil ∧ q.getD ax.toNat 0 ≤ loc.point.getD ax.toNat 0 then
              KDNode.nearestNeighbor l q
                (if ltBound (squaredDistance loc.point q) d = true
                  then (loc, some (squaredDistance loc.point q)) else (b, d)).1
                (if ltBound (squaredDistance loc.point q) d = true
                  then (loc, some (squaredDistance loc.point q)) else (b, d)).2
            else if r ≠ Tree.nil then
              KDNode.nearestNeighbor r q
                (if ltBound (squaredDistance loc.point q) d = true
                  then (loc, some (squaredDistance loc.point q)) else (b, d)).1
                (if ltBound (squaredDistance loc.point q) d = true
                  then (loc, some (squaredDistance loc.point q)) else (b, d)).2
            else (if ltBound (squaredDistance loc.point q) d = true
                  then (loc, some (squaredDistance loc.point q)) else (b, d))).1
            (if l ≠ Tree.nil ∧ q.getD ax.toNat 0 ≤ loc.point.getD ax.toNat 0 then
              KDNode.nearestNeighbor l q
                (if ltBound (squaredDistance loc.point q) d = true
                  then (loc, some (squaredDistance loc.point q)) else (b, d)).1
                (if ltBound (squaredDistance loc.point q) d = true
                  then (loc, some (squaredDistance loc.point q)) else (b, d)).2
            else if r ≠ Tree.nil then
              KDNode.nearestNeighbor r q
                (if ltBound (squaredDistance loc.point q) d = true
                  then (loc, some (squaredDistance loc.point q)) else (b, d)).1
                (if ltBound (squaredDistance loc.point q) d = true
                  then (loc, some (squaredDistance loc.point q)) else (b, d)).2
            else (if ltBound (squaredDistance loc.point q) d = true
                  then (loc, some (squaredDistance loc.point q)) else (b, d))).2
        else if l ≠ Tree.nil then
          KDNode.nearestNeighbor l q
            (if l ≠ Tree.nil ∧ q.getD ax.toNat 0 ≤ loc.point.getD ax.toNat 0 then
              KDNode.nearestNeighbor l q
                (if ltBound (squaredDistance loc.point q) d = true
                  then (loc, some (squaredDistance loc.point q)) else (b, d)).1
                (if ltBound (squaredDistance loc.point q) d = true
                  then (loc, some (squaredDistance loc.point q)) else (b, d)).2
            else if r ≠ Tree.nil then
              KDNode.nearestNeighbor r q
                (if ltBound (squaredDistance loc.point q) d = true
                  then (loc, some (squaredDistance loc.point q)) else (b, d)).1
                (if ltBound (squaredDistance loc.point q) d = true
                  then (loc, some (squaredDistance loc.point q)) else (b, d)).2
            else (if ltBound (squaredDistance loc.point q) d = true
                  then (loc, some (squaredDistance loc.point q)) else (b, d))).1
            (if l ≠ Tree.nil ∧ q.getD ax.toNat 0 ≤ loc.point.getD ax.toNat 0 then
              KDNode.nearestNeighbor l q
                (if ltBound (squaredDistance loc.point q) d = true
                  then (loc, some (squaredDistance loc.point q)) else (b, d)).1
                (if ltBound (squaredDistance loc.point q) d = true
                  then (loc, some (squaredDistance loc.point q)) else (b, d)).2
            else if r ≠ Tree.nil then
              KDNode.nearestNeighbor r q
                (if ltBound (squaredDistance loc.point q) d = true
                  then (loc, some (squaredDistance loc.point q)) else (b, d)).1
                (if ltBound (squaredDistance loc.point q) d = true
                  then (loc, some (squaredDistance loc.point q)) else (b, d)).2
            else (if ltBound (squaredDistance loc.point q) d = true
                  then (loc, some (squaredDistance loc.point q)) else (b, d))).2
        else
          (if l ≠ Tree.nil ∧ q.getD ax.toNat 0 ≤ loc.point.getD ax.toNat 0 then
            KDNode.nearestNeighbor l q
              (if ltBound (squaredDistance loc.point q) d = true
                then (loc, some (squaredDistance loc.point q)) else (b, d)).1
              (if ltBound (squaredDistance loc.point q) d = true
                then (loc, some (squaredDistance loc.point q)) else (b, d)).2
          else if r ≠ Tree.nil then
            KDNode.nearestNeighbor r q
              (if ltBound (squaredDistance loc.point q) d = true
                then (loc, some (squaredDistance loc.point q)) else (b, d)).1
              (if ltBound (squaredDistance loc.point q) d = true
                then (loc, some (squaredDistance loc.point q)) else (b, d)).2
          else (if ltBound (squaredDistance loc.point q) d = true
                then (loc, some (squaredDistance loc.point q)) else (b, d))))
       else
        (if l ≠ Tree.nil ∧ q.getD ax.toNat 0 ≤ loc.point.getD ax.toNat 0 then
          KDNode.nearestNeighbor l q
            (if ltBound (squaredDistance loc.point q) d = true
              then (loc, some (squaredDistance loc.point q)) else (b, d)).1
            (if ltBound (squaredDistance loc.point q) d = true
              then (loc, some (squaredDistance loc.point q)) else (b, d)).2
        else if r ≠ Tree.nil then
          KDNode.nearestNeighbor r q
            (if ltBound (squaredDistance loc.point q) d = true
              then (loc, some (squaredDistance loc.point q)) else (b, d)).1
            (if ltBound (squaredDistance loc.point q) d = true
              then (loc, some (squaredDistance loc.point q)) else (b, d)).2
        else (if ltBound (squaredDistance loc.point q) d = true
              then (loc, some (squaredDistance loc.point q)) else (b, d)))) := rfl

theorem nearestNeighbor_spec {D : Nat} (q : List ℚ) (hq : q.length = D) :
    ∀ (t : Tree), Inv D t → ∀ (b : IndexedPoint) (d : Option ℚ),
      NNOk t.locations q b d (KDNode.nearestNeighbor t q b d) ∧
      ∀ p ∈ t.locations, dLE (KDNode.nearestNeighbor t q b d).2
        (some (squaredDistance p.point q)) := by
  intro t
  induction t with
  | nil =>
    intro _ b d
    refine ⟨NNOk_refl _ _ _ _, ?_⟩
    intro p hp
    simp [Tree.locations] at hp
  | node ax loc l r ihl ihr =>
    intro hinv b d
    cases hinv with
    | node hax0 haxD hlocD hpartL hpartR hlenL hlenR hinvL hinvR =>
    have haxN : ax.toNat < D := by omega
    rw [nn_node_eq]
    set qa := q.getD ax.toNat 0 with hqadef
    set la := loc.point.getD ax.toNat 0 with hladef
    set dist := squaredDistance loc.point q with hdistdef
    set s1 := (if ltBound dist d = true then (loc, some dist) else (b, d)) with hs1def
    set s2 := (if l ≠ Tree.nil ∧ qa ≤ la then KDNode.nearestNeighbor l q s1.1 s1.2
        else if r ≠ Tree.nil then KDNode.nearestNeighbor r q s1.1 s1.2 else s1) with hs2def
    have hstep1 : NNOk [loc] q b d s1 ∧ dLE s1.2 (some dist) := by
      rw [hs1def, hdistdef]
      exact step1_spec q loc b d
    have hlocs : (Tree.node ax loc l r).locations = loc :: (l.locations ++ r.locations) := rfl
    have hsubLoc : ∀ x ∈ [loc], x ∈ (Tree.node ax loc l r).locations := by
      intro x hx
      rw [hlocs]
      rcases List.mem_singleton.mp hx with rfl
      exact List.mem_cons_self _ _
    have hsubL : ∀ x ∈ l.locations, x ∈ (Tree.node ax loc l r).locations := by
      intro x hx
      rw [hlocs]
      exact List.mem_cons_of_mem _ (List.mem_append_left _ hx)
    have hsubR : ∀ x ∈ r.locations, x ∈ (Tree.node ax loc l r).locations := by
      intro x hx
      rw [hlocs]
      exact List.mem_cons_of_mem _ (List.mem_append_right _ hx)
    have hsubAll : ∀ x ∈ (Tree.node ax loc l r).locations,
        x ∈ (Tree.node ax loc l r).locations := fun x hx => hx
    -- Phase A: facts about the state after the first (near-side) block.
    have phaseA : NNOk (Tree.node ax loc l r).locations q b d s2 ∧ dLE s2.2 s1.2 ∧
        ((l ≠ Tree.nil ∧ qa ≤ la) → ∀ p ∈ l.locations,
          dLE s2.2 (some (squaredDistance p.point q))) ∧
        ((¬ (l ≠ Tree.nil ∧ qa ≤ la)) → r ≠ Tree.nil → ∀ p ∈ r.locations,
          dLE s2.2 (some (squaredDistance p.point q))) := by
      by_cases hA : l ≠ Tree.nil ∧ qa ≤ la
      · have hs2 : s2 = KDNode.nearestNeighbor l q s1.1 s1.2 := by
          rw [hs2def, if_pos hA]
        have hL := ihl hinvL s1.1 s1.2
        refine ⟨?_, ?_, ?_, ?_⟩
        · exact NNOk_compose hsubLoc hsubL hstep1.1 (hs2 ▸ hL.1)
        · exact hs2 ▸ hL.1.1
        · intro _ p hp
          exact hs2 ▸ hL.2 p hp
        · intro hcon
          exact absurd hA hcon
      · by_cases hB : r ≠ Tree.nil
        · have hs2 : s2 = KDNode.nearestNeighbor r q s1.1 s1.2 := by
            rw [hs2def, if_neg hA, if_pos hB]
          have hR := ihr hinvR s1.1 s1.2
          refine ⟨?_, ?_, ?_, ?_⟩
          · exact NNOk_compose hsubLoc hsubR hstep1.1 (hs2 ▸ hR.1)
          · exact hs2 ▸ hR.1.1
          · intro hA'
            exact absurd hA' hA
          · intro _ _ p hp
            exact hs2 ▸ hR.2 p hp
        · have hs2 : s2 = s1 := by
            rw [hs2def, if_neg hA, if_neg hB]
          refine ⟨?_, ?_, ?_, ?_⟩
          · exact hs2 ▸ NNOk_mono hsubLoc hstep1.1
          · rw [hs2]; exact dLE_refl _
          · intro hA'
            exact absurd hA' hA
          · intro _ hB'
            exact absurd hB' hB

    obtain ⟨hA2, hA3, hA4, hA5⟩ := phaseA
    -- Phase B: facts about the final state after the hypersphere block.
    set res := (if leBound ((qa - la) * (qa - la)) s2.2 = true then
        (if r ≠ Tree.nil ∧ qa ≤ la then KDNode.nearestNeighbor r q s2.1 s2.2
         else if l ≠ Tree.nil then KDNode.nearestNeighbor l q s2.1 s2.2
         else s2)
      else s2) with hresdef
    have phaseB : NNOk (Tree.node ax loc l r).locations q b d res ∧ dLE res.2 s2.2 ∧
        (leBound ((qa - la) * (qa - la)) s2.2 = true →
          (¬ (r ≠ Tree.nil ∧ qa ≤ la)) → l ≠ Tree.nil → ∀ p ∈ l.locations,
          dLE res.2 (some (squaredDistance p.point q))) ∧
        (leBound ((qa - la) * (qa - la)) s2.2 = true →
          (r ≠ Tree.nil ∧ qa ≤ la) → ∀ p ∈ r.locations,
          dLE res.2 (some (squaredDistance p.point q))) ∧
        (leBound ((qa - la) * (qa - la)) s2.2 = false → res = s2) := by
      by_cases hT : leBound ((qa - la) * (qa - la)) s2.2 = true
      · by_cases hD : r ≠ Tree.nil ∧ qa ≤ la
        · have hres : res = KDNode.nearestNeighbor r q s2.1 s2.2 := by
            rw [hresdef, if_pos hT, if_pos hD]
          have hR := ihr hinvR s2.1 s2.2
          refine ⟨?_, ?_, ?_, ?_, ?_⟩
          · exact NNOk_compose hsubAll hsubR hA2 (hres ▸ hR.1)
          · exact hres ▸ hR.1.1
          · intro _ hcon
            exact absurd hD hcon
          · intro _ _ p hp
            exact hres ▸ hR.2 p hp
          · intro hcon
            rw [hT] at hcon
            exact absurd hcon (by simp)
        · by_cases hE : l ≠ Tree.nil
          · have hres : res = KDNode.nearestNeighbor l q s2.1 s2.2 := by
              rw [hresdef, if_pos hT, if_neg hD, if_pos hE]
            have hL := ihl hinvL s2.1 s2.2
            refine ⟨?_, ?_, ?_, ?_, ?_⟩
            · exact NNOk_compose hsubAll hsubL hA2 (hres ▸ hL.1)
            · exact hres ▸ hL.1.1
            · intro _ _ _ p hp
              exact hres ▸ hL.2 p hp
            · intro _ hD'
              exact absurd hD' hD
            · intro hcon
              rw [hT] at hcon
              exact absurd hcon (by simp)
          · have hres : res = s2 := by
              rw [hresdef, if_pos hT, if_neg hD, if_neg hE]
            refine ⟨?_, ?_, ?_, ?_, ?_⟩
            · exact hres ▸ hA2
            · rw [hres]; exact dLE_refl _
            · intro _ _ hE'
              exact absurd hE' hE
            · intro _ hD'
              exact absurd hD' hD
            · intro _
              exact hres
      · have hres : res = s2 := by
          rw [hresdef, if_neg hT]
        refine ⟨?_, ?_, ?_, ?_, ?_⟩
        · exact hres ▸ hA2
        · rw [hres]; exact dLE_refl _
        · intro hT'
          exact absurd hT' hT
        · intro hT'
          exact absurd hT' hT
        · intro _
          exact hres
    obtain ⟨hB2, hB3, hB4, hB5, hB6⟩ := phaseB
    refine ⟨hB2, ?_⟩
    -- Phase C: the final bound for every stored point.
    intro p hp
    rw [hlocs] at hp
    rcases List.mem_cons.mp hp with rfl | hp'
    · exact dLE_trans hB3 (dLE_trans hA3 hstep1.2)
    rcases List.mem_append.mp hp' with hpl | hpr
    · -- p lies in the left subtree
      have hlne : l ≠ Tree.nil := by
        intro hcon
        rw [hcon] at hpl
        simp [Tree.locations] at hpl
      by_cases hA : l ≠ Tree.nil ∧ qa ≤ la
      · exact dLE_trans hB3 (hA4 hA p hpl)
      · have hqla : ¬ (qa ≤ la) := by
          intro hcon
          exact hA ⟨hlne, hcon⟩
        by_cases hT : leBound ((qa - la) * (qa - la)) s2.2 = true
        · have hD : ¬ (r ≠ Tree.nil ∧ qa ≤ la) := by
            intro hcon
            exact hqla hcon.2
          exact hB4 hT hD hlne p hpl
        · obtain ⟨v, hv, hvlt⟩ := leBound_false (Bool.eq_false_iff.mpr hT)
          have hres2 : res.2 = some v := by
            rw [hB6 (Bool.eq_false_iff.mpr hT), hv]
          rw [hres2]
          have hpa : p.point.getD ax.toNat 0 ≤ la := hpartL p hpl
          have hterm : (p.point.getD ax.toNat 0 - qa) * (p.point.getD ax.toNat 0 - qa)
              ≤ squaredDistance p.point q := by
            rw [hqadef]
            exact squaredDistance_term p.point q ax.toNat
              (by rw [hlenL p hpl]; exact haxN) (by rw [hq]; exact haxN)
          have hchain : (qa - la) * (qa - la)
              ≤ (p.point.getD ax.toNat 0 - qa) * (p.point.getD ax.toNat 0 - qa) := by
            have h1 : (qa - la) * (qa - la) = (la - qa) * (la - qa) := by ring
            have h2 : (p.point.getD ax.toNat 0 - qa) * (p.point.getD ax.toNat 0 - qa)
                = (qa - p.point.getD ax.toNat 0) * (qa - p.point.getD ax.toNat 0) := by ring
            rw [h2]
            have hlt : la < qa := lt_of_not_le hqla
            have := sq_mono (show (0 : ℚ) ≤ qa - la by linarith)
              (show qa - la ≤ qa - p.point.getD ax.toNat 0 by linarith)
            linarith [this, h1]
          exact dLE_some_some (le_of_lt (lt_of_lt_of_le hvlt (le_trans hchain hterm)))
    · -- p lies in the right subtree
      have hrne : r ≠ Tree.nil := by
        intro hcon
        rw [hcon] at hpr
        simp [Tree.locations] at hpr
      by_cases hA : l ≠ Tree.nil ∧ qa ≤ la
      · by_cases hT : leBound ((qa - la) * (qa - la)) s2.2 = true
        · exact hB5 hT ⟨hrne, hA.2⟩ p hpr
        · obtain ⟨v, hv, hvlt⟩ := leBound_false (Bool.eq_false_iff.mpr hT)
          have hres2 : res.2 = some v := by
            rw [hB6 (Bool.eq_false_iff.mpr hT), hv]
          rw [hres2]
          have hpa : la ≤ p.point.getD ax.toNat 0 := hpartR p hpr
          have hterm : (p.point.getD ax.toNat 0 - qa) * (p.point.getD ax.toNat 0 - qa)
              ≤ squaredDistance p.point q := by
            rw [hqadef]
            exact squaredDistance_term p.point q ax.toNat
              (by rw [hlenR p hpr]; exact haxN) (by rw [hq]; exact haxN)
          have hchain : (qa - la) * (qa - la)
              ≤ (p.point.getD ax.toNat 0 - qa) * (p.point.getD ax.toNat 0 - qa) := by
            have hle : qa ≤ la := hA.2
            have := sq_mono (show (0 : ℚ) ≤ la - qa by linarith)
              (show la - qa ≤ p.point.getD ax.toNat 0 - qa by linarith)
            have h1 : (qa - la) * (qa - la) = (la - qa) * (la - qa) := by ring
            linarith [this, h1]
          exact dLE_some_some (le_of_lt (lt_of_lt_of_le hvlt (le_trans hchain hterm)))
      · exact dLE_trans hB3 (hA5 hA hrne p hpr)

theorem mem_indexedCopy {data : List (List ℚ)} {x : IndexedPoint} (hx : x ∈ indexedCopy data) :
    ∃ i : Nat, i < data.length ∧ x = ⟨(i : Int), data.getD i []⟩ := by
  rw [indexedCopy, List.mem_map] at hx
  obtain ⟨i, hi, hxi⟩ := hx
  exact ⟨i, List.mem_range.mp hi, hxi.symm⟩

theorem indexedCopy_mem {data : List (List ℚ)} {i : Nat} (hi : i < data.length) :
    (⟨(i : Int), data.getD i []⟩ : IndexedPoint) ∈ indexedCopy data := by
  rw [indexedCopy, List.mem_map]
  exact ⟨i, List.mem_range.mpr hi, rfl⟩

theorem getD_mem {data : List (List ℚ)} {i : Nat} (hi : i < data.length) :
    data.getD i [] ∈ data := by
  rw [List.getD_eq_getElem data [] hi]
  exact List.getElem_mem hi

theorem mem_getD {data : List (List ℚ)} {p : List ℚ} (hp : p ∈ data) :
    ∃ i : Nat, i < data.length ∧ data.getD i [] = p := by
  obtain ⟨i, hi, hpi⟩ := List.mem_iff_getElem.mp hp
  exact ⟨i, hi, by rw [List.getD_eq_getElem data [] hi]; exact hpi⟩

theorem indexedCopy_dims {data : List (List ℚ)} {D : Nat}
    (hdim : ∀ p ∈ data, p.length = D) :
    ∀ x ∈ indexedCopy data, x.point.length = D := by
  intro x hx
  obtain ⟨i, hi, rfl⟩ := mem_indexedCopy hx
  exact hdim _ (getD_mem hi)

theorem rangeSum_eq_squaredDistance : ∀ (a b : List ℚ), a.length = b.length →
    ((List.range b.length).map
      (fun i => (a.getD i 0 - b.getD i 0) * (a.getD i 0 - b.getD i 0))).sum
      = squaredDistance a b := by
  intro a
  induction a with
  | nil =>
    intro b h
    cases b with
    | nil => simp [squaredDistance]
    | cons y b' => simp at h
  | cons x a' ih =>
    intro b h
    cases b with
    | nil => simp at h
    | cons y b' =>
      rw [List.length_cons, List.range_succ_eq_map]
      simp only [List.map_cons, List.map_map, List.sum_cons, List.getD_cons_zero]
      have hfun : ((fun i => ((x :: a').getD i 0 - (y :: b').getD i 0) *
          ((x :: a').getD i 0 - (y :: b').getD i 0)) ∘ Nat.succ)
          = fun i => (a'.getD i 0 - b'.getD i 0) * (a'.getD i 0 - b'.getD i 0) := by
        funext i
        simp [List.getD_cons_succ]
      rw [hfun, ih b' (by simpa using h)]
      simp [squaredDistance, List.zipWith_cons_cons]

theorem bruteForceClosest_eq (data : List (List ℚ)) (q : List ℚ) :
    bruteForceClosest data q = ((List.range data.length).foldl
      (fun best dd => if ltBound (bfD data q dd) best.2 = true
        then ((dd : Int), some (bfD data q dd)) else best)
      ((-1 : Int), (none : Option ℚ))).1 := rfl

theorem bf_fold (f : Nat → ℚ) :
    ∀ (ps : List Nat) (acc : Int × Option ℚ),
      dLE (ps.foldl (fun best dd => if ltBound (f dd) best.2 = true
          then ((dd : Int), some (f dd)) else best) acc).2 acc.2 ∧
      ((ps.foldl (fun best dd => if ltBound (f dd) best.2 = true
          then ((dd : Int), some (f dd)) else best) acc) = acc ∨
        ∃ dd ∈ ps, (ps.foldl (fun best dd => if ltBound (f dd) best.2 = true
          then ((dd : Int), some (f dd)) else best) acc) = ((dd : Int), some (f dd))) ∧
      (∀ dd ∈ ps, dLE (ps.foldl (fun best dd => if ltBound (f dd) best.2 = true
          then ((dd : Int), some (f dd)) else best) acc).2 (some (f dd))) := by
  intro ps
  induction ps with
  | nil =>
    intro acc
    refine ⟨dLE_refl _, Or.inl rfl, ?_⟩
    intro dd hdd
    simp at hdd
  | cons dd0 ps ih =>
    intro acc
    simp only [List.foldl_cons]
    set acc' := (if ltBound (f dd0) acc.2 = true
      then ((dd0 : Int), some (f dd0)) else acc) with hacc'
    have hstep : dLE acc'.2 acc.2 ∧ dLE acc'.2 (some (f dd0)) ∧
        (acc' = acc ∨ acc' = ((dd0 : Int), some (f dd0))) := by
      by_cases hlt : ltBound (f dd0) acc.2 = true
      · rw [hacc', if_pos hlt]
        exact ⟨ltBound_true hlt, dLE_refl _, Or.inr rfl⟩
      · rw [hacc', if_neg hlt]
        exact ⟨dLE_refl _, ltBound_false (Bool.eq_false_iff.mpr hlt), Or.inl rfl⟩
    obtain ⟨ihd, ihprov, ihbound⟩ := ih acc'
    refine ⟨dLE_trans ihd hstep.1, ?_, ?_⟩
    · rcases ihprov with h | ⟨dd, hdd, hres⟩
      · rcases hstep.2.2 with h' | h'
        · exact Or.inl (by rw [h, h'])
        · exact Or.inr ⟨dd0, List.mem_cons_self _ _, by rw [h, h']⟩
      · exact Or.inr ⟨dd, List.mem_cons_of_mem _ hdd, hres⟩
    · intro dd hdd
      rcases List.mem_cons.mp hdd with rfl | hdd'
      · exact dLE_trans ihd hstep.2.1
      · exact ihbound dd hdd'

theorem bruteForceClosest_spec (data : List (List ℚ)) (q : List ℚ) (hne : data ≠ []) :
    ∃ j : Nat, j < data.length ∧ bruteForceClosest data q = (j : Int) ∧
      ∀ i : Nat, i < data.length → bfD data q j ≤ bfD data q i := by
  obtain ⟨hd, hprov, hbound⟩ := bf_fold (bfD data q) (List.range data.length)
    ((-1 : Int), (none : Option ℚ))
  have h0len : 0 < data.length := List.length_pos.mpr hne
  have h0mem : 0 ∈ List.range data.length := List.mem_range.mpr h0len
  rcases hprov with h | ⟨j, hj, hres⟩
  · exfalso
    have := hbound 0 h0mem
    rw [h] at this
    exact dLE_some_none this
  · refine ⟨j, List.mem_range.mp hj, ?_, ?_⟩
    · rw [bruteForceClosest_eq, hres]
    · intro i hi
      have := hbound i (List.mem_range.mpr hi)
      rw [hres] at this
      exact this

theorem nearestNeighbor_root {T : KDTree} (q : List ℚ) (hne : T.root ≠ Tree.nil) :
    T.nearestNeighbor q = (KDNode.nearestNeighbor T.root q
      { index := -1, point := List.replicate q.length 0 } none).1 := by
  rcases hroot : T.root with _ | ⟨ax, loc, l, r⟩
  · exact absurd hroot hne
  rw [KDTree.nearestNeighbor, hroot]

/-- C1. For any dataset of `n ≥ 1` points, all of dimension `D ≥ 1`, and any
query of dimension `D`: whenever `KDTree::build` completes, the point returned
by `KDTree::nearestNeighbor` is a genuine dataset entry (its index and point
agree with the dataset), its squared distance to the query is minimal over a
brute-force scan of the whole dataset, and it is exactly tied in distance with
the entry found by `bruteForceClosest` (so the index may differ from the
brute-force index only among points at equal distance). -/
theorem nearestNeighbor_agrees_bruteForce
    (data : List (List ℚ)) (q : List ℚ) (D : Nat) (hD : 1 ≤ D)
    (hne : data ≠ []) (hdim : ∀ p ∈ data, p.length = D) (hq : q.length = D)
    (T : KDTree) (hb : KDTree.build data = some T) :
    (∃ i : Nat, i < data.length ∧ (T.nearestNeighbor q).index = (i : Int) ∧
      (T.nearestNeighbor q).point = data.getD i []) ∧
    (∀ p ∈ data, squaredDistance (T.nearestNeighbor q).point q ≤ squaredDistance p q) ∧
    squaredDistance (T.nearestNeighbor q).point q =
      squaredDistance (data.getD (bruteForceClosest data q).toNat []) q := by
  have hroot := KDTree.build_root hb
  have hdim' : ∀ x ∈ indexedCopy data, x.point.length = D := indexedCopy_dims hdim
  have hinv : Inv D T.root := build_Inv hroot hdim'
  have hrne : T.root ≠ Tree.nil := build_ne_nil hroot
  obtain ⟨hok, hbound⟩ := nearestNeighbor_spec q hq T.root hinv
    { index := -1, point := List.replicate q.length 0 } none
  have hnodeloc : ∃ p0, p0 ∈ T.root.locations := by
    rcases hshape : T.root with _ | ⟨ax, loc, l, r⟩
    · exact absurd hshape hrne
    · exact ⟨loc, List.mem_cons_self _ _⟩
  obtain ⟨p0, hp0⟩ := hnodeloc
  rcases hok.2 with hsame | ⟨pstar, hpstar, hres⟩
  · exfalso
    have := hbound p0 hp0
    rw [hsame] at this
    exact dLE_some_none this
  have hresult : T.nearestNeighbor q = pstar := by
    rw [nearestNeighbor_root q hrne, hres]
  have hres2 : (KDNode.nearestNeighbor T.root q
      { index := -1, point := List.replicate q.length 0 } none).2
      = some (squaredDistance pstar.point q) := by
    rw [hres]
  -- the returned point is a dataset entry
  obtain ⟨i, hi, hpi⟩ := mem_indexedCopy (locations_subset hroot pstar hpstar)
  -- minimality over the dataset
  have hmin : ∀ p ∈ data, squaredDistance pstar.point q ≤ squaredDistance p q := by
    intro p hp
    obtain ⟨j, hj, hpj⟩ := mem_getD hp
    have hmem : (⟨(j : Int), data.getD j []⟩ : IndexedPoint) ∈ T.root.locations :=
      subset_locations hroot _ (indexedCopy_mem hj)
    have := hbound _ hmem
    rw [hres2] at this
    have hle : squaredDistance pstar.point q ≤
        squaredDistance (data.getD j []) q := this
    rw [hpj] at hle
    exact hle
  -- agreement with the brute-force scan
  obtain ⟨jb, hjb, hbf, hbfmin⟩ := bruteForceClosest_spec data q hne
  have hbfD_eq : ∀ k : Nat, k < data.length →
      bfD data q k = squaredDistance (data.getD k []) q := by
    intro k hk
    have hlen : (data.getD k []).length = q.length := by
      rw [hdim _ (getD_mem hk), hq]
    exact rangeSum_eq_squaredDistance (data.getD k []) q hlen
  have heq : squaredDistance pstar.point q =
      squaredDistance (data.getD jb []) q := by
    have h1 : squaredDistance pstar.point q ≤ squaredDistance (data.getD jb []) q :=
      hmin _ (getD_mem hjb)
    have h2 : bfD data q jb ≤ bfD data q i := hbfmin i hi
    rw [hbfD_eq jb hjb, hbfD_eq i hi] at h2
    have h3 : squaredDistance (data.getD jb []) q ≤ squaredDistance pstar.point q := by
      have : pstar.point = data.getD i [] := by rw [hpi]
      rw [this]
      exact h2
    exact le_antisymm h1 h3
  refine ⟨⟨i, hi, ?_, ?_⟩, ?_, ?_⟩
  · rw [hresult, hpi]
  · rw [hresult, hpi]
  · rw [hresult]
    exact hmin
  · rw [hresult, hbf]
    simpa using heq

/-- C2. Any query against the tree obtained by deserializing the
serialization of a successfully built tree T is answered exactly as T answers
it (in fact the deserialized tree is structurally identical to T, so both the
returned index and the returned point, hence the distance, coincide). -/
theorem serialize_roundTrip_queries (data : List (List ℚ)) (T : KDTree)
    (hb : KDTree.build data = some T) (q : List ℚ) :
    (KDTree.deserializeInto { root := Tree.nil } T.serialize).nearestNeighbor q
      = T.nearestNeighbor q := by
  have hroot := KDTree.build_root hb
  rw [deserialize_serialize T (build_axesNonneg hroot) (build_ne_nil hroot)]

/-- C3. `KDTree::build` on an empty point sequence does not return an explicit
failure flag: `KDNode::build` immediately dereferences the start iterator of
the empty range (`start->point.size()`), which is undefined behaviour — the
`none` result of the embedding. The claimed explicit, non-crashing failure is
not what the code does. -/
theorem build_nil_eq_none : KDTree.build ([] : List (List ℚ)) = none := rfl

/-- C4. `KDTree::build` on the mixed-dimension input [[0,0],[1]] performs no
dimension validation and raises no error: it runs to completion (returning
true in the C++) and produces a tree, silently accepting the inconsistent
input, contrary to the claimed `MalformedInput`/`BuildFailure` report. -/
theorem build_mixed_dims_succeeds :
    KDTree.build [[0, 0], [1]] = some (KDTree.mk
      (Tree.node 0 ⟨1, [1]⟩
        (Tree.node 1 ⟨0, [0, 0]⟩ Tree.nil Tree.nil)
        (Tree.node 0 ⟨1, [1]⟩ Tree.nil Tree.nil))) := by decide

/-- C5 counterexample: serializing a tree with no root does not produce a lone
`-1` line — `operator<<` on `KDTree` writes nothing at all when the root is
null. -/
theorem serialize_empty_not_marker :
    KDTree.serialize { root := Tree.nil } ≠ [Line.int (-1)] := by decide

/-- C5 amended: serializing an empty tree (one with no root) produces no
output at all (zero lines); the missing root is represented by the empty
stream, which the decoder reads back as the implicit end-of-input `-1`. -/
theorem serialize_empty_eq_nil : KDTree.serialize { root := Tree.nil } = [] := rfl

/-- C6 counterexample: building from the two points [0], [1] stores the median
[1] at the root, and the right recursive sub-range is exactly the median
element alone (the degenerate case of the claim) — yet a right child is still
built: a leaf holding a second copy of the median. -/
theorem build_pair_has_right_child :
    KDTree.build [[0], [1]] = some (KDTree.mk
      (Tree.node 0 ⟨1, [1]⟩
        (Tree.node 0 ⟨0, [0]⟩ Tree.nil Tree.nil)
        (Tree.node 0 ⟨1, [1]⟩ Tree.nil Tree.nil))) ∧
    Tree.node 0 (⟨1, [1]⟩ : IndexedPoint) Tree.nil Tree.nil ≠ Tree.nil := by decide

/-- C6 amended: during build of a range with at least 2 elements the
right-child recursion always happens, because the sub-range from the median
position (inclusive) to the end is always non-empty — the code only checks
non-emptiness, so even in the degenerate case where that sub-range is just the
median element itself a right child is built. -/
theorem build_right_child_always (fuel : Nat) (l : List IndexedPoint) (paxis : Int)
    (ax : Int) (loc : IndexedPoint) (lt rt : Tree)
    (hb : KDNode.build fuel l paxis = some (Tree.node ax loc lt rt))
    (hlen : 2 ≤ l.length) : rt ≠ Tree.nil :=
  (build_both_children hb hlen).2

theorem build_right_child_always_witness :
    Tree.node 0 (⟨1, [1]⟩ : IndexedPoint) Tree.nil Tree.nil ≠ Tree.nil :=
  build_right_child_always 2 [⟨0, [0]⟩, ⟨1, [1]⟩] (-1) 0 ⟨1, [1]⟩
    (Tree.node 0 ⟨0, [0]⟩ Tree.nil Tree.nil)
    (Tree.node 0 ⟨1, [1]⟩ Tree.nil Tree.nil) (by decide) (by decide)

/-- C7. For every build range with at least 2 elements, the right recursive
sub-range includes the median element itself: the indexed point stored at the
current node reappears as the location of some node of the right subtree, so
the same original point occupies two tree locations. -/
theorem median_duplicated_in_right (fuel : Nat) (l : List IndexedPoint) (paxis : Int)
    (ax : Int) (loc : IndexedPoint) (lt rt : Tree)
    (hb : KDNode.build fuel l paxis = some (Tree.node ax loc lt rt))
    (hlen : 2 ≤ l.length) : loc ∈ rt.locations := by
  refine build_cases fuel l paxis _ hb ?_ ?_
  · rintro p rfl _ _
    simp at hlen
  · rintro fuel' p rest ax' med mrest lt' rt' hfuel rfl hrest hp hax _ hdrop hlt hrt heq
    injection heq.symm with h1 h2 h3 h4
    have hmem : med ∈ rt'.locations := subset_locations hrt med (List.mem_cons_self _ _)
    rw [h2, h4] at hmem
    exact hmem

theorem median_duplicated_in_right_witness :
    (⟨1, [1]⟩ : IndexedPoint) ∈
      (Tree.node 0 (⟨1, [1]⟩ : IndexedPoint) Tree.nil Tree.nil).locations :=
  median_duplicated_in_right 2 [⟨0, [0]⟩, ⟨1, [1]⟩] (-1) 0 ⟨1, [1]⟩
    (Tree.node 0 ⟨0, [0]⟩ Tree.nil Tree.nil)
    (Tree.node 0 ⟨1, [1]⟩ Tree.nil Tree.nil) (by decide) (by decide)

/-- C8. In every tree produced by a successful build over dimension-D data
(D ≥ 1), each node's split axis equals (parent's axis + 1) mod D, with -1
standing above the root — so axes cycle 0, 1, …, D-1, 0, … strictly by depth;
in particular the root's split axis is 0. -/
theorem build_axes_cycle (data : List (List ℚ)) (D : Nat) (hD : 1 ≤ D)
    (hdim : ∀ p ∈ data, p.length = D) (T : KDTree)
    (hb : KDTree.build data = some T) :
    T.root.axesFrom D (-1) = true ∧
    ∀ ax loc lt rt, T.root = Tree.node ax loc lt rt → ax = 0 := by
  have hroot := KDTree.build_root hb
  have h1 := build_axesFrom hroot (indexedCopy_dims hdim)
  refine ⟨h1, ?_⟩
  intro ax loc lt rt hshape
  rw [hshape] at h1
  have h2 : ax = ((-1 : Int) + 1) % (D : Int) := by
    have := (by simpa [Tree.axesFrom, Bool.and_eq_true, and_assoc] using h1 :
      (ax = ((-1 : Int) + 1) % (D : Int)) ∧ lt.axesFrom D ax = true ∧
        rt.axesFrom D ax = true)
    exact this.1
  rw [h2]
  norm_num

theorem build_axes_cycle_witness :
    (KDTree.mk (Tree.node 0 ⟨1, [1]⟩
      (Tree.node 0 ⟨0, [0]⟩ Tree.nil Tree.nil)
      (Tree.node 0 ⟨1, [1]⟩ Tree.nil Tree.nil))).root.axesFrom 1 (-1) = true ∧
    ∀ ax loc lt rt, (KDTree.mk (Tree.node 0 ⟨1, [1]⟩
      (Tree.node 0 ⟨0, [0]⟩ Tree.nil Tree.nil)
      (Tree.node 0 ⟨1, [1]⟩ Tree.nil Tree.nil))).root = Tree.node ax loc lt rt → ax = 0 :=
  build_axes_cycle [[0], [1]] 1 (by decide) (by decide) _ (by decide)

/-- C9. `KDTree::nearestNeighbor` on a tree without a root reports the
not-built condition by returning the default `IndexedPoint` — the sentinel
index `-1` (with an empty point) — rather than crashing; the tree itself is
not modified (the embedded function is pure). -/
theorem nearestNeighbor_no_root_sentinel :
    ∀ q : List ℚ, KDTree.nearestNeighbor { root := Tree.nil } q
      = { index := -1, point := [] } :=
  fun _ => rfl

theorem nearestNeighbor_no_root_sentinel_witness :
    KDTree.nearestNeighbor { root := Tree.nil } [0] = { index := -1, point := [] } :=
  nearestNeighbor_no_root_sentinel [0]

/-- C10. Every node of a tree produced by a successful build has either no
children or two children; in particular, for every input of at least 2 points
the root has both a left and a right child. -/
theorem build_zero_or_two_children (data : List (List ℚ)) (T : KDTree)
    (hb : KDTree.build data = some T) :
    T.root.zeroOrTwo = true ∧
    (2 ≤ data.length → ∃ ax loc lt rt, T.root = Tree.node ax loc lt rt ∧
      lt ≠ Tree.nil ∧ rt ≠ Tree.nil) := by
  have hroot := KDTree.build_root hb
  refine ⟨build_zeroOrTwo hroot, ?_⟩
  intro hlen
  rcases hshape : T.root with _ | ⟨ax, loc, lt, rt⟩
  · exact absurd hshape (build_ne_nil hroot)
  have hlen' : 2 ≤ (indexedCopy data).length := by
    simpa [indexedCopy] using hlen
  rw [hshape] at hroot
  obtain ⟨h1, h2⟩ := build_both_children hroot hlen'
  exact ⟨ax, loc, lt, rt, rfl, h1, h2⟩

theorem build_zero_or_two_children_witness :
    (KDTree.mk (Tree.node 0 ⟨1, [1]⟩
      (Tree.node 0 ⟨0, [0]⟩ Tree.nil Tree.nil)
      (Tree.node 0 ⟨1, [1]⟩ Tree.nil Tree.nil))).root.zeroOrTwo = true ∧
    (2 ≤ ([[0], [1]] : List (List ℚ)).length →
      ∃ ax loc lt rt, (KDTree.mk (Tree.node 0 ⟨1, [1]⟩
        (Tree.node 0 ⟨0, [0]⟩ Tree.nil Tree.nil)
        (Tree.node 0 ⟨1, [1]⟩ Tree.nil Tree.nil))).root = Tree.node ax loc lt rt ∧
        lt ≠ Tree.nil ∧ rt ≠ Tree.nil) :=
  build_zero_or_two_children [[0], [1]] _ (by decide)

theorem serialize_roundTrip_queries_witness :
    (KDTree.deserializeInto { root := Tree.nil }
      (KDTree.serialize (KDTree.mk (Tree.node 0 ⟨1, [1]⟩
        (Tree.node 0 ⟨0, [0]⟩ Tree.nil Tree.nil)
        (Tree.node 0 ⟨1, [1]⟩ Tree.nil Tree.nil))))).nearestNeighbor [5]
      = (KDTree.mk (Tree.node 0 ⟨1, [1]⟩
        (Tree.node 0 ⟨0, [0]⟩ Tree.nil Tree.nil)
        (Tree.node 0 ⟨1, [1]⟩ Tree.nil Tree.nil))).nearestNeighbor [5] :=
  serialize_roundTrip_queries [[0], [1]] _ (by decide) [5]

theorem nearestNeighbor_agrees_bruteForce_witness :
    (∃ i : Nat, i < ([[0], [1]] : List (List ℚ)).length ∧
      ((KDTree.mk (Tree.node 0 ⟨1, [1]⟩
        (Tree.node 0 ⟨0, [0]⟩ Tree.nil Tree.nil)
        (Tree.node 0 ⟨1, [1]⟩ Tree.nil Tree.nil))).nearestNeighbor [0]).index = (i : Int) ∧
      ((KDTree.mk (Tree.node 0 ⟨1, [1]⟩
        (Tree.node 0 ⟨0, [0]⟩ Tree.nil Tree.nil)
        (Tree.node 0 ⟨1, [1]⟩ Tree.nil Tree.nil))).nearestNeighbor [0]).point
        = ([[0], [1]] : List (List ℚ)).getD i []) ∧
    (∀ p ∈ ([[0], [1]] : List (List ℚ)),
      squaredDistance ((KDTree.mk (Tree.node 0 ⟨1, [1]⟩
        (Tree.node 0 ⟨0, [0]⟩ Tree.nil Tree.nil)
        (Tree.node 0 ⟨1, [1]⟩ Tree.nil Tree.nil))).nearestNeighbor [0]).point [0]
        ≤ squaredDistance p [0]) ∧
    squaredDistance ((KDTree.mk (Tree.node 0 ⟨1, [1]⟩
      (Tree.node 0 ⟨0, [0]⟩ Tree.nil Tree.nil)
      (Tree.node 0 ⟨1, [1]⟩ Tree.nil Tree.nil))).nearestNeighbor [0]).point [0]
      = squaredDistance (([[0], [1]] : List (List ℚ)).getD
        (bruteForceClosest [[0], [1]] [0]).toNat []) [0] :=
  nearestNeighbor_agrees_bruteForce [[0], [1]] [0] 1 (by decide) (by decide)
    (by decide) (by decide) _ (by decide)

end KDT
